import Mathlib

/-!
Shallow embedding of `upyt/connection.py`.

The module under verification provides an abstract `Connection` over a byte
stream together with a pipe-backed implementation, `SubprocessConnection`,
whose `read`, `read_until` and `read_buffered` methods are select-based loops
driven by an absolute deadline `end_time = time.monotonic() + self._timeout`.

Modelling choices:

* Time is the integer line `Int`, standing for the monotonic clock.  All
  computation other than a `select` wait is taken to be instantaneous, so the
  current time only advances inside a readiness wait.
* The child process's stdout pipe is a timed queue
  `stdoutPending : List (Int × Nat)`: the not-yet-consumed bytes in arrival
  order, each paired with the instant at which it becomes readable.
  `stdoutCloseTime` is the instant at which end-of-file becomes readable
  (`none` while the child keeps the pipe open).  `sel.select(w)` at time
  `now` reports ready iff the next readable event (the arrival of the first
  pending byte, or end-of-file) happens no later than `now + w`, and returns
  at the event time (or at `now + w` on timeout); `stdout.read(1)` pops the
  first pending byte, or yields nothing at end-of-file.
* The stdin pipe is modelled by the outcome of the underlying
  `stdin.write` / `stdin.flush` calls, each either a `BrokenPipeError` or a
  success (for `write`, carrying the count of bytes the transport accepted).
* Each read method takes the call's start time `now` and returns the bytes
  read, the updated connection, and the time at which the call returns.
-/

namespace Upyt

/-- Python's `BrokenPipeError`: the exception raised when writing to a pipe
whose reading end has gone away because the child process exited. -/
inductive BrokenPipeError where
  | brokenPipe
deriving DecidableEq

/-- Model of the `subprocess.Popen` object stored in
`SubprocessConnection._process` (spawned with `stdin=PIPE`, `stdout=PIPE`,
`text=False`). -/
structure PopenModel where
  /-- Unconsumed bytes of the child's stdout, in order: arrival time, value. -/
  stdoutPending : List (Int × Nat)
  /-- Time at which end-of-file on stdout becomes readable, if ever. -/
  stdoutCloseTime : Option Int
  /-- Outcome of `self._process.stdin.write(data)`. -/
  stdinWriteResult : List Nat → Except BrokenPipeError Nat
  /-- Outcome of `self._process.stdin.flush()`. -/
  stdinFlushResult : Except BrokenPipeError Unit
  /-- Number of `kill()` calls issued so far (incremented by `close`). -/
  killCount : Nat

/-- The state of a `SubprocessConnection`: the `Popen` handle and the mutable
`_timeout` attribute (seconds, here an integer number of clock units). -/
structure SubprocessConnection where
  _process : PopenModel
  _timeout : Int

/-- Loop body of `SubprocessConnection.read`:

    while (len(out) < num_bytes
           and (now := time.monotonic()) < end_time
           and sel.select(end_time - now)
           and (data := self._process.stdout.read(1))):
        out += data

Each iteration waits `end_time - now` for readiness and, when ready, reads one
byte.  A `select` that times out leaves the clock at `end_time`; a ready
`select` leaves it at the arrival instant (or `now` if the byte was already
queued); end-of-file counts as readable and `read(1)` then yields no data.
Returns (accumulated bytes, remaining pending bytes, time of return). -/
def readLoop (num_bytes : Nat) (end_time : Int) (close_time : Option Int) :
    List Nat → List (Int × Nat) → Int → List Nat × List (Int × Nat) × Int
  | out, pending, now =>
    if out.length < num_bytes ∧ now < end_time then
      match pending with
      | (a, b) :: rest =>
        if a ≤ end_time then
          readLoop num_bytes end_time close_time (out ++ [b]) rest (max now a)
        else
          (out, (a, b) :: rest, end_time)
      | [] =>
        match close_time with
        | some c => if c ≤ end_time then (out, [], max now c) else (out, [], end_time)
        | none => (out, [], end_time)
    else
      (out, pending, now)

/-- Loop body of `SubprocessConnection.read_until`: identical to `readLoop`
except that the stop predicate is `out.endswith(ending)` instead of
`len(out) < num_bytes`. -/
def readUntilLoop (ending : List Nat) (end_time : Int) (close_time : Option Int) :
    List Nat → List (Int × Nat) → Int → List Nat × List (Int × Nat) × Int
  | out, pending, now =>
    if ¬ ending <:+ out ∧ now < end_time then
      match pending with
      | (a, b) :: rest =>
        if a ≤ end_time then
          readUntilLoop ending end_time close_time (out ++ [b]) rest (max now a)
        else
          (out, (a, b) :: rest, end_time)
      | [] =>
        match close_time with
        | some c => if c ≤ end_time then (out, [], max now c) else (out, [], end_time)
        | none => (out, [], end_time)
    else
      (out, pending, now)

/-- Loop body of `SubprocessConnection.read_buffered`:

    while sel.select(0) and (data := self._process.stdout.read(1)):
        out += data

`sel.select(0)` is a non-blocking poll: ready iff the next readable event is
at or before `now`.  When the queue is exhausted the loop stops — either the
poll reports not-ready, or end-of-file is readable and `read(1)` yields no
data — and in both cases the clock has not moved. -/
def readBufferedLoop : List Nat → List (Int × Nat) → Int → List Nat × List (Int × Nat) × Int
  | out, pending, now =>
    match pending with
    | (a, b) :: rest =>
      if a ≤ now then
        readBufferedLoop (out ++ [b]) rest (max now a)
      else
        (out, (a, b) :: rest, now)
    | [] => (out, [], now)

/-- `SubprocessConnection.read`: `end_time` is computed once, at call start,
as `time.monotonic() + self._timeout`; the loop then runs `readLoop`. -/
def SubprocessConnection.read (c : SubprocessConnection) (now : Int) (num_bytes : Nat) :
    List Nat × SubprocessConnection × Int :=
  let end_time := now + c._timeout
  let r := readLoop num_bytes end_time c._process.stdoutCloseTime [] c._process.stdoutPending now
  (r.1, { c with _process := { c._process with stdoutPending := r.2.1 } }, r.2.2)

/-- `SubprocessConnection.read_until`: `end_time` is computed once, at call
start, as `time.monotonic() + self._timeout`; the loop then runs
`readUntilLoop`. -/
def SubprocessConnection.read_until (c : SubprocessConnection) (now : Int) (ending : List Nat) :
    List Nat × SubprocessConnection × Int :=
  let end_time := now + c._timeout
  let r := readUntilLoop ending end_time c._process.stdoutCloseTime [] c._process.stdoutPending now
  (r.1, { c with _process := { c._process with stdoutPending := r.2.1 } }, r.2.2)

/-- `SubprocessConnection.read_buffered`: no deadline is involved at all; the
loop polls with `sel.select(0)`. -/
def SubprocessConnection.read_buffered (c : SubprocessConnection) (now : Int) :
    List Nat × SubprocessConnection × Int :=
  let r := readBufferedLoop [] c._process.stdoutPending now
  (r.1, { c with _process := { c._process with stdoutPending := r.2.1 } }, r.2.2)

/-- `SubprocessConnection.write`:

    try:
        written = self._process.stdin.write(data)
        self._process.stdin.flush()
    except BrokenPipeError:
        return 0
    return written
-/
def SubprocessConnection.write (c : SubprocessConnection) (data : List Nat) : Nat :=
  match c._process.stdinWriteResult data with
  | .error _ => 0
  | .ok written =>
    match c._process.stdinFlushResult with
    | .error _ => 0
    | .ok _ => written

/-- `SubprocessConnection.close`: `self._process.kill()` then
`self._process.wait()`.  The kill is recorded in `killCount`; the wait does
not change the modelled state. -/
def SubprocessConnection.close (c : SubprocessConnection) : SubprocessConnection :=
  { c with _process := { c._process with killCount := c._process.killCount + 1 } }

/-- The `timeout` property getter of `SubprocessConnection`. -/
def SubprocessConnection.timeout (c : SubprocessConnection) : Int :=
  c._timeout

/-- The `timeout` property setter of `SubprocessConnection`. -/
def SubprocessConnection.setTimeout (c : SubprocessConnection) (value : Int) :
    SubprocessConnection :=
  { c with _timeout := value }

/-- `Connection.timeout_override` (inherited by `SubprocessConnection`):

    old_timeout = self.timeout
    try:
        self.timeout = value
        yield
    finally:
        self.timeout = old_timeout

The block's body is a state transformer that may finish normally (`.ok`) or
raise (`.error`); in Python either way the object survives, so the body
returns the connection alongside its outcome, and the `finally` clause
restores the saved timeout on both paths before the outcome propagates. -/
def SubprocessConnection.timeout_override {ε α : Type} (c : SubprocessConnection) (value : Int)
    (body : SubprocessConnection → Except ε α × SubprocessConnection) :
    Except ε α × SubprocessConnection :=
  let old_timeout := c.timeout
  let r := body (c.setTimeout value)
  (r.1, r.2.setTimeout old_timeout)

/-- `Connection.__enter__` (inherited by `SubprocessConnection`): returns
`self`. -/
def SubprocessConnection.enter (c : SubprocessConnection) : SubprocessConnection :=
  c

/-- `Connection.__exit__` (inherited by `SubprocessConnection`): calls
`self.close()` and returns `None`, so any in-flight exception propagates. -/
def SubprocessConnection.exit (c : SubprocessConnection) : SubprocessConnection :=
  c.close

/-- The Python `with` statement applied to a connection: bind
`__enter__`'s result as the `as`-target, run the block, and run `__exit__`
on every exit path — after normal completion and before an exception
propagates (the `__exit__` here returns `None`, which never suppresses the
exception, so the block's outcome is passed through unchanged). -/
def SubprocessConnection.withContext {ε α : Type} (c : SubprocessConnection)
    (body : SubprocessConnection → Except ε α × SubprocessConnection) :
    Except ε α × SubprocessConnection :=
  let r := body c.enter
  (r.1, r.2.exit)

/-- The delimiter `ending` appears in the unconsumed stream strictly before
time `t`: some prefix of the queued bytes ends with `ending` and every byte of
that prefix arrives strictly before `t`. -/
def appearsBefore (pending : List (Int × Nat)) (ending : List Nat) (t : Int) : Prop :=
  ∃ k ∈ List.range (pending.length + 1),
    ending <:+ (pending.take k).map Prod.snd ∧ ∀ x ∈ pending.take k, x.1 < t

/-- The delimiter `ending` appears in the unconsumed stream at or before time
`t`: some prefix of the queued bytes ends with `ending` and every byte of that
prefix arrives no later than `t`. -/
def appearsAtOrBefore (pending : List (Int × Nat)) (ending : List Nat) (t : Int) : Prop :=
  ∃ k ∈ List.range (pending.length + 1),
    ending <:+ (pending.take k).map Prod.snd ∧ ∀ x ∈ pending.take k, x.1 ≤ t

instance (pending : List (Int × Nat)) (ending : List Nat) (t : Int) :
    Decidable (appearsBefore pending ending t) := by
  unfold appearsBefore
  infer_instance

instance (pending : List (Int × Nat)) (ending : List Nat) (t : Int) :
    Decidable (appearsAtOrBefore pending ending t) := by
  unfold appearsAtOrBefore
  infer_instance

/-- A connection with the given stdout queue and timeout, an stdin pipe that
is still open (accepting every write in full), and no kill issued yet. -/
def mkConn (pending : List (Int × Nat)) (timeout : Int) : SubprocessConnection :=
  { _process := { stdoutPending := pending, stdoutCloseTime := none,
                  stdinWriteResult := fun data => .ok data.length,
                  stdinFlushResult := .ok (), killCount := 0 },
    _timeout := timeout }

/-- A connection whose child has exited, so that the underlying
`stdin.write` raises `BrokenPipeError`. -/
def brokenStdinConn : SubprocessConnection :=
  { _process := { stdoutPending := [], stdoutCloseTime := some 0,
                  stdinWriteResult := fun _ => .error .brokenPipe,
                  stdinFlushResult := .error .brokenPipe, killCount := 0 },
    _timeout := 1 }

theorem readLoop_cons (num_bytes : Nat) (end_time : Int) (close_time : Option Int)
    (out : List Nat) (a : Int) (b : Nat) (rest : List (Int × Nat)) (now : Int) :
    readLoop num_bytes end_time close_time out ((a, b) :: rest) now
      = if out.length < num_bytes ∧ now < end_time then
          if a ≤ end_time then
            readLoop num_bytes end_time close_time (out ++ [b]) rest (max now a)
          else (out, (a, b) :: rest, end_time)
        else (out, (a, b) :: rest, now) := by
  rw [readLoop.eq_def]

theorem readLoop_nil (num_bytes : Nat) (end_time : Int) (close_time : Option Int)
    (out : List Nat) (now : Int) :
    readLoop num_bytes end_time close_time out [] now
      = if out.length < num_bytes ∧ now < end_time then
          match close_time with
          | some c => if c ≤ end_time then (out, [], max now c) else (out, [], end_time)
          | none => (out, [], end_time)
        else (out, [], now) := by
  rw [readLoop.eq_def]

theorem readUntilLoop_cons (ending : List Nat) (end_time : Int) (close_time : Option Int)
    (out : List Nat) (a : Int) (b : Nat) (rest : List (Int × Nat)) (now : Int) :
    readUntilLoop ending end_time close_time out ((a, b) :: rest) now
      = if ¬ ending <:+ out ∧ now < end_time then
          if a ≤ end_time then
            readUntilLoop ending end_time close_time (out ++ [b]) rest (max now a)
          else (out, (a, b) :: rest, end_time)
        else (out, (a, b) :: rest, now) := by
  rw [readUntilLoop.eq_def]

theorem readUntilLoop_nil (ending : List Nat) (end_time : Int) (close_time : Option Int)
    (out : List Nat) (now : Int) :
    readUntilLoop ending end_time close_time out [] now
      = if ¬ ending <:+ out ∧ now < end_time then
          match close_time with
          | some c => if c ≤ end_time then (out, [], max now c) else (out, [], end_time)
          | none => (out, [], end_time)
        else (out, [], now) := by
  rw [readUntilLoop.eq_def]

theorem readBufferedLoop_cons (out : List Nat) (a : Int) (b : Nat)
    (rest : List (Int × Nat)) (now : Int) :
    readBufferedLoop out ((a, b) :: rest) now
      = if a ≤ now then readBufferedLoop (out ++ [b]) rest (max now a)
        else (out, (a, b) :: rest, now) := by
  rw [readBufferedLoop.eq_def]

theorem readBufferedLoop_nil (out : List Nat) (now : Int) :
    readBufferedLoop out [] now = (out, [], now) := by
  rw [readBufferedLoop.eq_def]

theorem readUntilLoop_slice (ending : List Nat) (end_time : Int) (close_time : Option Int) :
    ∀ (pending : List (Int × Nat)) (out : List Nat) (now : Int),
      ∃ k, k ≤ pending.length ∧
        (readUntilLoop ending end_time close_time out pending now).1
            = out ++ (pending.take k).map Prod.snd ∧
        (readUntilLoop ending end_time close_time out pending now).2.1 = pending.drop k ∧
        ∀ x ∈ pending.take k, x.1 ≤ end_time := by
  intro pending
  induction pending with
  | nil =>
    intro out now
    refine ⟨0, Nat.le_refl _, ?_⟩
    rw [readUntilLoop_nil]
    cases close_time with
    | none => split_ifs <;> simp
    | some ctime =>
      dsimp only
      by_cases hc : ctime ≤ end_time
      · rw [if_pos hc]; split_ifs <;> simp
      · rw [if_neg hc]; split_ifs <;> simp
  | cons hd tl ih =>
    obtain ⟨a, b⟩ := hd
    intro out now
    rw [readUntilLoop_cons]
    by_cases hg : ¬ ending <:+ out ∧ now < end_time
    · rw [if_pos hg]
      by_cases ha : a ≤ end_time
      · rw [if_pos ha]
        obtain ⟨k, hk, h1, h2, h3⟩ := ih (out ++ [b]) (max now a)
        refine ⟨k + 1, by simpa using hk, ?_, ?_, ?_⟩
        · rw [h1]; simp
        · rw [h2]; simp
        · intro x hx
          rw [List.take_succ_cons] at hx
          rcases List.mem_cons.mp hx with h | h
          · subst h; exact ha
          · exact h3 x h
      · rw [if_neg ha]
        exact ⟨0, Nat.zero_le _, by simp, by simp, by simp⟩
    · rw [if_neg hg]
      exact ⟨0, Nat.zero_le _, by simp, by simp, by simp⟩



theorem readLoop_slice (num_bytes : Nat) (end_time : Int) (close_time : Option Int) :
    ∀ (pending : List (Int × Nat)) (out : List Nat) (now : Int),
      ∃ k, k ≤ pending.length ∧
        (readLoop num_bytes end_time close_time out pending now).1
            = out ++ (pending.take k).map Prod.snd ∧
        (readLoop num_bytes end_time close_time out pending now).2.1 = pending.drop k ∧
        ∀ x ∈ pending.take k, x.1 ≤ end_time := by
  intro pending
  induction pending with
  | nil =>
    intro out now
    refine ⟨0, Nat.le_refl _, ?_⟩
    rw [readLoop_nil]
    cases close_time with
    | none => split_ifs <;> simp
    | some ctime =>
      dsimp only
      by_cases hc : ctime ≤ end_time
      · rw [if_pos hc]; split_ifs <;> simp
      · rw [if_neg hc]; split_ifs <;> simp
  | cons hd tl ih =>
    obtain ⟨a, b⟩ := hd
    intro out now
    rw [readLoop_cons]
    by_cases hg : out.length < num_bytes ∧ now < end_time
    · rw [if_pos hg]
      by_cases ha : a ≤ end_time
      · rw [if_pos ha]
        obtain ⟨k, hk, h1, h2, h3⟩ := ih (out ++ [b]) (max now a)
        refine ⟨k + 1, by simpa using hk, ?_, ?_, ?_⟩
        · rw [h1]; simp
        · rw [h2]; simp
        · intro x hx
          rw [List.take_succ_cons] at hx
          rcases List.mem_cons.mp hx with h | h
          · subst h; exact ha
          · exact h3 x h
      · rw [if_neg ha]
        exact ⟨0, Nat.zero_le _, by simp, by simp, by simp⟩
    · rw [if_neg hg]
      exact ⟨0, Nat.zero_le _, by simp, by simp, by simp⟩

theorem readBufferedLoop_slice :
    ∀ (pending : List (Int × Nat)) (out : List Nat) (now : Int),
      ∃ k, k ≤ pending.length ∧
        (readBufferedLoop out pending now).1 = out ++ (pending.take k).map Prod.snd ∧
        (readBufferedLoop out pending now).2.1 = pending.drop k ∧
        (∀ x ∈ pending.take k, x.1 ≤ now) ∧
        (readBufferedLoop out pending now).2.2 = now := by
  intro pending
  induction pending with
  | nil =>
    intro out now
    exact ⟨0, Nat.le_refl _, by rw [readBufferedLoop_nil]; simp,
      by rw [readBufferedLoop_nil]; simp, by simp, by rw [readBufferedLoop_nil]⟩
  | cons hd tl ih =>
    obtain ⟨a, b⟩ := hd
    intro out now
    rw [readBufferedLoop_cons]
    by_cases ha : a ≤ now
    · rw [if_pos ha, max_eq_left ha]
      obtain ⟨k, hk, h1, h2, h3, h4⟩ := ih (out ++ [b]) now
      refine ⟨k + 1, by simpa using hk, ?_, ?_, ?_, h4⟩
      · rw [h1]; simp
      · rw [h2]; simp
      · intro x hx
        rw [List.take_succ_cons] at hx
        rcases List.mem_cons.mp hx with h | h
        · subst h; exact ha
        · exact h3 x h
    · rw [if_neg ha]
      exact ⟨0, Nat.zero_le _, by simp, by simp, by simp, by simp⟩

theorem readLoop_time (num_bytes : Nat) (end_time : Int) (close_time : Option Int) :
    ∀ (pending : List (Int × Nat)) (out : List Nat) (now : Int),
      now ≤ (readLoop num_bytes end_time close_time out pending now).2.2 ∧
      (readLoop num_bytes end_time close_time out pending now).2.2 ≤ max now end_time := by
  intro pending
  induction pending with
  | nil =>
    intro out now
    rw [readLoop_nil]
    cases close_time with
    | none =>
      split_ifs with hg
      · constructor <;> simp <;> omega
      · constructor <;> simp
    | some ctime =>
      dsimp only
      by_cases hc : ctime ≤ end_time
      · rw [if_pos hc]
        split_ifs with hg
        · constructor <;> simp <;> omega
        · constructor <;> simp
      · rw [if_neg hc]
        split_ifs with hg
        · constructor <;> simp <;> omega
        · constructor <;> simp
  | cons hd tl ih =>
    obtain ⟨a, b⟩ := hd
    intro out now
    rw [readLoop_cons]
    by_cases hg : out.length < num_bytes ∧ now < end_time
    · rw [if_pos hg]
      by_cases ha : a ≤ end_time
      · rw [if_pos ha]
        obtain ⟨ih1, ih2⟩ := ih (out ++ [b]) (max now a)
        constructor
        · calc now ≤ max now a := le_max_left _ _
            _ ≤ _ := ih1
        · calc (readLoop num_bytes end_time close_time (out ++ [b]) tl (max now a)).2.2
              ≤ max (max now a) end_time := ih2
            _ ≤ max now end_time := by omega
      · rw [if_neg ha]
        constructor <;> simp <;> omega
    · rw [if_neg hg]
      constructor <;> simp



theorem readUntilLoop_time (ending : List Nat) (end_time : Int) (close_time : Option Int) :
    ∀ (pending : List (Int × Nat)) (out : List Nat) (now : Int),
      now ≤ (readUntilLoop ending end_time close_time out pending now).2.2 ∧
      (readUntilLoop ending end_time close_time out pending now).2.2 ≤ max now end_time := by
  intro pending
  induction pending with
  | nil =>
    intro out now
    rw [readUntilLoop_nil]
    cases close_time with
    | none =>
      split_ifs with hg
      · constructor <;> simp <;> omega
      · constructor <;> simp
    | some ctime =>
      dsimp only
      by_cases hc : ctime ≤ end_time
      · rw [if_pos hc]
        split_ifs with hg
        · constructor <;> simp <;> omega
        · constructor <;> simp
      · rw [if_neg hc]
        split_ifs with hg
        · constructor <;> simp <;> omega
        · constructor <;> simp
  | cons hd tl ih =>
    obtain ⟨a, b⟩ := hd
    intro out now
    rw [readUntilLoop_cons]
    by_cases hg : ¬ ending <:+ out ∧ now < end_time
    · rw [if_pos hg]
      by_cases ha : a ≤ end_time
      · rw [if_pos ha]
        obtain ⟨ih1, ih2⟩ := ih (out ++ [b]) (max now a)
        constructor
        · calc now ≤ max now a := le_max_left _ _
            _ ≤ _ := ih1
        · calc (readUntilLoop ending end_time close_time (out ++ [b]) tl (max now a)).2.2
              ≤ max (max now a) end_time := ih2
            _ ≤ max now end_time := by omega
      · rw [if_neg ha]
        constructor <;> simp <;> omega
    · rw [if_neg hg]
      constructor <;> simp

theorem readLoop_length (num_bytes : Nat) (end_time : Int) (close_time : Option Int) :
    ∀ (pending : List (Int × Nat)) (out : List Nat) (now : Int),
      (readLoop num_bytes end_time close_time out pending now).1.length
        ≤ max out.length num_bytes := by
  intro pending
  induction pending with
  | nil =>
    intro out now
    rw [readLoop_nil]
    cases close_time with
    | none => split_ifs <;> simp
    | some ctime =>
      dsimp only
      by_cases hc : ctime ≤ end_time
      · rw [if_pos hc]; split_ifs <;> simp
      · rw [if_neg hc]; split_ifs <;> simp
  | cons hd tl ih =>
    obtain ⟨a, b⟩ := hd
    intro out now
    rw [readLoop_cons]
    by_cases hg : out.length < num_bytes ∧ now < end_time
    · obtain ⟨hg1, hg2⟩ := hg
      rw [if_pos ⟨hg1, hg2⟩]
      by_cases ha : a ≤ end_time
      · rw [if_pos ha]
        have h := ih (out ++ [b]) (max now a)
        have e1 : (out ++ [b]).length = out.length + 1 := by simp
        rw [e1, Nat.max_eq_right hg1] at h
        exact le_trans h (Nat.le_max_right _ _)
      · rw [if_neg ha]; simp
    · rw [if_neg hg]; simp

theorem readLoop_complete (num_bytes : Nat) (end_time : Int) (close_time : Option Int) :
    ∀ (pending : List (Int × Nat)) (out : List Nat) (now : Int),
      out.length ≤ num_bytes →
      num_bytes - out.length ≤ pending.length →
      (∀ x ∈ pending.take (num_bytes - out.length), max now x.1 < end_time) →
      (readLoop num_bytes end_time close_time out pending now).1
          = out ++ (pending.take (num_bytes - out.length)).map Prod.snd ∧
      (readLoop num_bytes end_time close_time out pending now).2.1
          = pending.drop (num_bytes - out.length) := by
  intro pending
  induction pending with
  | nil =>
    intro out now hle hlen havail
    have h0 : num_bytes - out.length = 0 := by simpa using hlen
    have hge : ¬ out.length < num_bytes := by omega
    rw [readLoop_nil, if_neg (fun h => hge h.1)]
    simp [h0]
  | cons hd tl ih =>
    obtain ⟨a, b⟩ := hd
    intro out now hle hlen havail
    by_cases hm : num_bytes - out.length = 0
    · have hge : ¬ out.length < num_bytes := by omega
      rw [readLoop_cons, if_neg (fun h => hge h.1)]
      simp [hm]
    · obtain ⟨m, hm'⟩ : ∃ m, num_bytes - out.length = m + 1 :=
        ⟨num_bytes - out.length - 1, by omega⟩
      have hmem : (a, b) ∈ ((a, b) :: tl).take (num_bytes - out.length) := by
        rw [hm', List.take_succ_cons]
        exact List.mem_cons_self _ _
      have hnowa : max now a < end_time := havail _ hmem
      have hnow : now < end_time := lt_of_le_of_lt (le_max_left _ _) hnowa
      have hlt : out.length < num_bytes := by omega
      have ha : a ≤ end_time := le_of_lt (lt_of_le_of_lt (le_max_right _ _) hnowa)
      rw [readLoop_cons, if_pos ⟨hlt, hnow⟩, if_pos ha]
      have hnew : num_bytes - (out ++ [b]).length = m := by
        simp only [List.length_append, List.length_cons, List.length_nil]
        omega
      have hav : ∀ x ∈ tl.take (num_bytes - (out ++ [b]).length),
          max (max now a) x.1 < end_time := by
        intro x hx
        rw [hnew] at hx
        have hx' : x ∈ ((a, b) :: tl).take (num_bytes - out.length) := by
          rw [hm', List.take_succ_cons]
          exact List.mem_cons_of_mem _ hx
        exact max_lt hnowa (lt_of_le_of_lt (le_max_right _ _) (havail x hx'))
      have hlen' : num_bytes - (out ++ [b]).length ≤ tl.length := by
        simp only [List.length_cons] at hlen
        omega
      obtain ⟨ih1, ih2⟩ := ih (out ++ [b]) (max now a)
        (by simp only [List.length_append, List.length_cons, List.length_nil]; omega)
        hlen' hav
      constructor
      · rw [ih1, hnew, hm', List.take_succ_cons]
        simp
      · rw [ih2, hnew, hm', List.drop_succ_cons]

theorem readLoop_partial (num_bytes : Nat) (end_time : Int) (close_time : Option Int) :
    ∀ (pending : List (Int × Nat)) (m : Nat) (out : List Nat) (now : Int),
      out.length + m < num_bytes →
      m ≤ pending.length →
      (∀ x ∈ pending.take m, max now x.1 < end_time) →
      (∀ x ∈ (pending.drop m).take 1, end_time < x.1) →
      (readLoop num_bytes end_time close_time out pending now).1
          = out ++ (pending.take m).map Prod.snd ∧
      (readLoop num_bytes end_time close_time out pending now).2.1 = pending.drop m := by
  intro pending
  induction pending with
  | nil =>
    intro m out now hn hm havail hnext
    have hm0 : m = 0 := by simpa using hm
    subst hm0
    obtain ⟨k, hk, h1, h2, -⟩ := readLoop_slice num_bytes end_time close_time [] out now
    have hk0 : k = 0 := by simpa using hk
    subst hk0
    simp only [List.take_nil, List.map_nil, List.append_nil, List.drop_nil] at h1 h2 ⊢
    exact ⟨h1, h2⟩
  | cons hd tl ih =>
    obtain ⟨a, b⟩ := hd
    intro m out now hn hm havail hnext
    cases m with
    | zero =>
      have ha : end_time < a := hnext (a, b) (by simp)
      rw [readLoop_cons]
      by_cases hnow : now < end_time
      · rw [if_pos ⟨by omega, hnow⟩, if_neg (by omega)]
        exact ⟨by simp, by simp⟩
      · rw [if_neg (fun hg => hnow hg.2)]
        exact ⟨by simp, by simp⟩
    | succ m' =>
      have hmem : (a, b) ∈ ((a, b) :: tl).take (m' + 1) := by
        rw [List.take_succ_cons]
        exact List.mem_cons_self _ _
      have hnowa : max now a < end_time := havail _ hmem
      have hnow : now < end_time := lt_of_le_of_lt (le_max_left _ _) hnowa
      have ha : a ≤ end_time := le_of_lt (lt_of_le_of_lt (le_max_right _ _) hnowa)
      rw [readLoop_cons, if_pos ⟨by omega, hnow⟩, if_pos ha]
      have hav' : ∀ x ∈ tl.take m', max (max now a) x.1 < end_time := by
        intro x hx
        have hx' : x ∈ ((a, b) :: tl).take (m' + 1) := by
          rw [List.take_succ_cons]
          exact List.mem_cons_of_mem _ hx
        exact max_lt hnowa (lt_of_le_of_lt (le_max_right _ _) (havail x hx'))
      have hnext' : ∀ x ∈ (tl.drop m').take 1, end_time < x.1 := by
        intro x hx
        apply hnext
        rw [List.drop_succ_cons]
        exact hx
      obtain ⟨ih1, ih2⟩ := ih m' (out ++ [b]) (max now a)
        (by simp only [List.length_append, List.length_cons, List.length_nil]; omega)
        (by simp only [List.length_cons] at hm; omega) hav' hnext'
      constructor
      · rw [ih1, List.take_succ_cons]
        simp
      · rw [ih2, List.drop_succ_cons]

theorem readUntilLoop_reaches (ending : List Nat) (end_time : Int) (close_time : Option Int) :
    ∀ (pending : List (Int × Nat)) (k : Nat) (out : List Nat) (now : Int),
      now < end_time →
      k ≤ pending.length →
      ending <:+ out ++ (pending.take k).map Prod.snd →
      (∀ x ∈ pending.take k, x.1 < end_time) →
      ending <:+ (readUntilLoop ending end_time close_time out pending now).1 := by
  intro pending
  induction pending with
  | nil =>
    intro k out now hnow hk hsuf hav
    simp only [List.length_nil, Nat.le_zero] at hk
    subst hk
    simp only [List.take_nil, List.map_nil, List.append_nil] at hsuf
    rw [readUntilLoop_nil, if_neg (fun h => h.1 hsuf)]
    exact hsuf
  | cons hd tl ih =>
    obtain ⟨a, b⟩ := hd
    intro k out now hnow hk hsuf hav
    by_cases hs : ending <:+ out
    · rw [readUntilLoop_cons, if_neg (fun h => h.1 hs)]
      exact hs
    · cases k with
      | zero =>
        simp only [List.take_zero, List.map_nil, List.append_nil] at hsuf
        exact absurd hsuf hs
      | succ m =>
        have hmem : (a, b) ∈ ((a, b) :: tl).take (m + 1) := by
          rw [List.take_succ_cons]
          exact List.mem_cons_self _ _
        have ha : a < end_time := hav _ hmem
        rw [readUntilLoop_cons, if_pos ⟨hs, hnow⟩, if_pos (le_of_lt ha)]
        refine ih m (out ++ [b]) (max now a) (max_lt hnow ha) ?_ ?_ ?_
        · simp only [List.length_cons] at hk
          omega
        · rw [List.take_succ_cons] at hsuf
          simpa using hsuf
        · intro x hx
          apply hav
          rw [List.take_succ_cons]
          exact List.mem_cons_of_mem _ hx

theorem readUntilLoop_minimal (ending : List Nat) (end_time : Int) (close_time : Option Int) :
    ∀ (pending : List (Int × Nat)) (out : List Nat) (now : Int),
      (∀ j < out.length, ¬ ending <:+ out.take j) →
      ∀ j, j < (readUntilLoop ending end_time close_time out pending now).1.length →
        ¬ ending <:+ (readUntilLoop ending end_time close_time out pending now).1.take j := by
  intro pending
  induction pending with
  | nil =>
    intro out now hinv j hj
    have h1 : (readUntilLoop ending end_time close_time out [] now).1 = out := by
      obtain ⟨k, hk, hsl, -⟩ := readUntilLoop_slice ending end_time close_time [] out now
      simp only [List.length_nil, Nat.le_zero] at hk
      subst hk
      simpa using hsl
    rw [h1] at hj ⊢
    exact hinv j hj
  | cons hd tl ih =>
    obtain ⟨a, b⟩ := hd
    intro out now hinv
    rw [readUntilLoop_cons]
    by_cases hg : ¬ ending <:+ out ∧ now < end_time
    · rw [if_pos hg]
      by_cases ha : a ≤ end_time
      · rw [if_pos ha]
        apply ih (out ++ [b]) (max now a)
        intro j hj
        simp only [List.length_append, List.length_cons, List.length_nil] at hj
        rcases Nat.lt_or_ge j out.length with hlt | hge
        · rw [List.take_append_of_le_length (le_of_lt hlt)]
          exact hinv j hlt
        · have hj' : j = out.length := by omega
          subst hj'
          rw [List.take_left]
          exact hg.1
      · rw [if_neg ha]
        intro j hj
        exact hinv j (by simpa using hj)
    · rw [if_neg hg]
      intro j hj
      exact hinv j (by simpa using hj)


theorem readLoop_expired (num_bytes : Nat) (end_time : Int) (close_time : Option Int)
    (pending : List (Int × Nat)) (out : List Nat) (now : Int) (h : ¬ now < end_time) :
    readLoop num_bytes end_time close_time out pending now = (out, pending, now) := by
  cases pending with
  | nil => rw [readLoop_nil, if_neg (fun hg => h hg.2)]
  | cons hd tl =>
    obtain ⟨a, b⟩ := hd
    rw [readLoop_cons, if_neg (fun hg => h hg.2)]

theorem readUntilLoop_expired (ending : List Nat) (end_time : Int) (close_time : Option Int)
    (pending : List (Int × Nat)) (out : List Nat) (now : Int) (h : ¬ now < end_time) :
    readUntilLoop ending end_time close_time out pending now = (out, pending, now) := by
  cases pending with
  | nil => rw [readUntilLoop_nil, if_neg (fun hg => h hg.2)]
  | cons hd tl =>
    obtain ⟨a, b⟩ := hd
    rw [readUntilLoop_cons, if_neg (fun hg => h hg.2)]

/-- Claim C1, counterexample to the stated iff.  Left conjunct: a delimiter
byte arriving exactly at the deadline (`arrival = now + timeout`) is captured,
so the result ends with the delimiter although the delimiter did not appear
strictly before the deadline.  Right conjunct: with two bytes both arriving
exactly at the deadline, the delimiter has fully appeared at (hence not after)
the deadline, yet the result does not end with it — so the iff also fails when
"before the deadline" is read as "at or before".  Either reading of the claim
is therefore refuted. -/
theorem read_until_deadline_iff_cx :
    (([65] <:+ ((mkConn [(10, 65)] 10).read_until 0 [65]).1) ∧
      ¬ appearsBefore (mkConn [(10, 65)] 10)._process.stdoutPending [65]
          (0 + (mkConn [(10, 65)] 10)._timeout)) ∧
    ((¬ [65, 66] <:+ ((mkConn [(10, 65), (10, 66)] 10).read_until 0 [65, 66]).1) ∧
      appearsAtOrBefore (mkConn [(10, 65), (10, 66)] 10)._process.stdoutPending [65, 66]
          (0 + (mkConn [(10, 65), (10, 66)] 10)._timeout)) := by
  decide

/-- Claim C1 (amended): `read_until(d)` returns a result ending in `d`
whenever `d` appears in the stream with every byte up to the occurrence
arriving strictly before the deadline `now + timeout` (and the timeout is
positive); conversely, a result ending in `d` implies `d` appeared with all
those bytes arriving at or before the deadline (a delimiter completing exactly
at expiry may or may not be captured); and in every case — in particular when
the timeout elapses first — the call returns exactly the partial bytes
accumulated so far, which form a contiguous consumed slice of the stream. -/
theorem read_until_delimiter_amended (c : SubprocessConnection) (now : Int) (ending : List Nat) :
    (0 < c._timeout →
      appearsBefore c._process.stdoutPending ending (now + c._timeout) →
      ending <:+ (c.read_until now ending).1) ∧
    (ending <:+ (c.read_until now ending).1 →
      appearsAtOrBefore c._process.stdoutPending ending (now + c._timeout)) ∧
    (∃ k ≤ c._process.stdoutPending.length,
      (c.read_until now ending).1 = (c._process.stdoutPending.take k).map Prod.snd ∧
      (c.read_until now ending).2.1._process.stdoutPending
        = c._process.stdoutPending.drop k) := by
  refine ⟨?_, ?_, ?_⟩
  · intro ht happ
    obtain ⟨k, hkr, hsuf, hav⟩ := happ
    have hk : k ≤ c._process.stdoutPending.length := by
      have := List.mem_range.mp hkr
      omega
    exact readUntilLoop_reaches ending (now + c._timeout) c._process.stdoutCloseTime
      c._process.stdoutPending k [] now (by omega) hk (by simpa using hsuf) hav
  · intro hsuf
    obtain ⟨k, hk, h1, h2, h3⟩ := readUntilLoop_slice ending (now + c._timeout)
      c._process.stdoutCloseTime c._process.stdoutPending [] now
    refine ⟨k, List.mem_range.mpr (by omega), ?_, h3⟩
    have h1' : (c.read_until now ending).1
        = (c._process.stdoutPending.take k).map Prod.snd := by simpa using h1
    rwa [h1'] at hsuf
  · obtain ⟨k, hk, h1, h2, h3⟩ := readUntilLoop_slice ending (now + c._timeout)
      c._process.stdoutCloseTime c._process.stdoutPending [] now
    exact ⟨k, hk, by simpa using h1, h2⟩

/-- Claim C1 witness: a delimiter arriving strictly before the deadline is
found and returned with the result ending in it. -/
theorem read_until_delimiter_amended_witness :
    [66] <:+ ((mkConn [(1, 65), (2, 66)] 10).read_until 0 [66]).1 :=
  (read_until_delimiter_amended (mkConn [(1, 65), (2, 66)] 10) 0 [66]).1
    (by decide) (by decide)

/-- Claim C2: `read(n)` never returns more than `n` bytes; it always returns
a contiguous consumed slice of the stream; when at least `n` bytes become
available before the timeout elapses (each of the first `n` queued bytes is
readable at a time strictly before `now + timeout`), it returns exactly the
first `n` bytes of the stream; and when only `m < n` bytes arrive before the
timeout elapses (the first `m` queued bytes readable strictly before the
deadline, the next queued byte, if any, arriving strictly after it), it
returns exactly those `m` — possibly zero — bytes. -/
theorem read_returns_at_most_n (c : SubprocessConnection) (now : Int) (num_bytes : Nat) :
    (c.read now num_bytes).1.length ≤ num_bytes ∧
    (∃ k ≤ num_bytes,
      (c.read now num_bytes).1 = (c._process.stdoutPending.take k).map Prod.snd ∧
      (c.read now num_bytes).2.1._process.stdoutPending
        = c._process.stdoutPending.drop k) ∧
    (num_bytes ≤ c._process.stdoutPending.length →
      (∀ x ∈ c._process.stdoutPending.take num_bytes, max now x.1 < now + c._timeout) →
      (c.read now num_bytes).1
        = (c._process.stdoutPending.take num_bytes).map Prod.snd) ∧
    (∀ m, m < num_bytes →
      m ≤ c._process.stdoutPending.length →
      (∀ x ∈ c._process.stdoutPending.take m, max now x.1 < now + c._timeout) →
      (∀ x ∈ (c._process.stdoutPending.drop m).take 1, now + c._timeout < x.1) →
      (c.read now num_bytes).1 = (c._process.stdoutPending.take m).map Prod.snd ∧
      (c.read now num_bytes).2.1._process.stdoutPending
        = c._process.stdoutPending.drop m) := by
  have hlen : (c.read now num_bytes).1.length ≤ num_bytes := by
    have h := readLoop_length num_bytes (now + c._timeout) c._process.stdoutCloseTime
      c._process.stdoutPending [] now
    simpa using h
  refine ⟨hlen, ?_, ?_, ?_⟩
  · obtain ⟨k, hk, h1, h2, h3⟩ := readLoop_slice num_bytes (now + c._timeout)
      c._process.stdoutCloseTime c._process.stdoutPending [] now
    have h1' : (c.read now num_bytes).1
        = (c._process.stdoutPending.take k).map Prod.snd := by simpa using h1
    have hkn : k ≤ num_bytes := by
      have : (c.read now num_bytes).1.length = k := by
        rw [h1']
        simp [List.length_take, Nat.min_eq_left hk]
      omega
    exact ⟨k, hkn, h1', h2⟩
  · intro h1 h2
    obtain ⟨hc1, hc2⟩ := readLoop_complete num_bytes (now + c._timeout)
      c._process.stdoutCloseTime c._process.stdoutPending [] now
      (by simp) (by simpa using h1) (by simpa using h2)
    simpa using hc1
  · intro m hmn hmlen havail hnext
    obtain ⟨h1, h2⟩ := readLoop_partial num_bytes (now + c._timeout)
      c._process.stdoutCloseTime c._process.stdoutPending m [] now
      (by simpa using hmn) hmlen havail hnext
    exact ⟨by simpa using h1, h2⟩

/-- Claim C2 witness: with two bytes queued before the deadline, `read(2)`
returns exactly those two bytes; and with only one of two bytes arriving
before the deadline, `read(5)` returns exactly that one byte. -/
theorem read_returns_at_most_n_witness :
    ((mkConn [(0, 65), (1, 66)] 10).read 0 2).1
      = ((mkConn [(0, 65), (1, 66)] 10)._process.stdoutPending.take 2).map Prod.snd ∧
    ((mkConn [(0, 65), (20, 66)] 10).read 0 5).1
      = ((mkConn [(0, 65), (20, 66)] 10)._process.stdoutPending.take 1).map Prod.snd :=
  ⟨(read_returns_at_most_n (mkConn [(0, 65), (1, 66)] 10) 0 2).2.2.1 (by decide) (by decide),
    ((read_returns_at_most_n (mkConn [(0, 65), (20, 66)] 10) 0 5).2.2.2 1
      (by decide) (by decide) (by decide) (by decide)).1⟩

/-- Claim C3: both `read` and `read_until` fix their absolute deadline once,
at call entry, as `now + timeout`, and every `select` inside waits only
`end_time - now`, the time remaining until that deadline; consequently the
clock at which the call returns never drifts past the deadline: it lies
between `now` and `max now (now + timeout)`. -/
theorem read_deadline_no_drift (c : SubprocessConnection) (now : Int) (num_bytes : Nat)
    (ending : List Nat) :
    (now ≤ (c.read now num_bytes).2.2 ∧
      (c.read now num_bytes).2.2 ≤ max now (now + c._timeout)) ∧
    (now ≤ (c.read_until now ending).2.2 ∧
      (c.read_until now ending).2.2 ≤ max now (now + c._timeout)) :=
  ⟨readLoop_time num_bytes (now + c._timeout) c._process.stdoutCloseTime
      c._process.stdoutPending [] now,
    readUntilLoop_time ending (now + c._timeout) c._process.stdoutCloseTime
      c._process.stdoutPending [] now⟩

/-- Claim C4: `read_until` consumes exactly the bytes it returns — the
remaining stream is the original stream with precisely the returned prefix
dropped — and it stops at the first delimiter occurrence: no proper initial
part of the result already ended with the delimiter, so no byte past the
matched delimiter is ever consumed. -/
theorem read_until_consumes_minimally (c : SubprocessConnection) (now : Int)
    (ending : List Nat) :
    (c.read_until now ending).2.1._process.stdoutPending
      = c._process.stdoutPending.drop (c.read_until now ending).1.length ∧
    (c.read_until now ending).1
      = (c._process.stdoutPending.take (c.read_until now ending).1.length).map Prod.snd ∧
    ∀ j, j < (c.read_until now ending).1.length →
      ¬ ending <:+ (c.read_until now ending).1.take j := by
  obtain ⟨k, hk, h1, h2, h3⟩ := readUntilLoop_slice ending (now + c._timeout)
    c._process.stdoutCloseTime c._process.stdoutPending [] now
  have h1' : (c.read_until now ending).1
      = (c._process.stdoutPending.take k).map Prod.snd := by simpa using h1
  have hkl : (c.read_until now ending).1.length = k := by
    rw [h1']
    simp [List.length_take, Nat.min_eq_left hk]
  refine ⟨?_, ?_, ?_⟩
  · rw [hkl]; exact h2
  · rw [hkl]; exact h1'
  · have hmin := readUntilLoop_minimal ending (now + c._timeout) c._process.stdoutCloseTime
      c._process.stdoutPending [] now (by simp)
    exact fun j hj => hmin j hj

/-- Claim C5: `read`, `read_until` and `read_buffered` always return normally
— for every connection state, including an exhausted timeout and a closed
stream (a zero-byte underlying read) — and the value returned is exactly the
bytes accumulated so far: a contiguous, possibly empty, consumed slice of the
stream. -/
theorem reads_return_accumulated_bytes (c : SubprocessConnection) (now : Int)
    (num_bytes : Nat) (ending : List Nat) :
    (∃ k ≤ c._process.stdoutPending.length,
      (c.read now num_bytes).1 = (c._process.stdoutPending.take k).map Prod.snd ∧
      (c.read now num_bytes).2.1._process.stdoutPending
        = c._process.stdoutPending.drop k) ∧
    (∃ k ≤ c._process.stdoutPending.length,
      (c.read_until now ending).1 = (c._process.stdoutPending.take k).map Prod.snd ∧
      (c.read_until now ending).2.1._process.stdoutPending
        = c._process.stdoutPending.drop k) ∧
    (∃ k ≤ c._process.stdoutPending.length,
      (c.read_buffered now).1 = (c._process.stdoutPending.take k).map Prod.snd ∧
      (c.read_buffered now).2.1._process.stdoutPending
        = c._process.stdoutPending.drop k) := by
  refine ⟨?_, ?_, ?_⟩
  · obtain ⟨k, hk, h1, h2, -⟩ := readLoop_slice num_bytes (now + c._timeout)
      c._process.stdoutCloseTime c._process.stdoutPending [] now
    exact ⟨k, hk, by simpa using h1, h2⟩
  · obtain ⟨k, hk, h1, h2, -⟩ := readUntilLoop_slice ending (now + c._timeout)
      c._process.stdoutCloseTime c._process.stdoutPending [] now
    exact ⟨k, hk, by simpa using h1, h2⟩
  · obtain ⟨k, hk, h1, h2, -, -⟩ := readBufferedLoop_slice c._process.stdoutPending [] now
    exact ⟨k, hk, by simpa using h1, h2⟩

/-- Claim C6: `timeout_override(v)` saves the prior timeout, runs the body on
the connection with timeout set to `v`, and restores the prior value exactly
on every exit path — whether the body finishes normally or raises — after
which the body's outcome (value or propagated error) is passed through. -/
theorem timeout_override_restores {ε α : Type} (c : SubprocessConnection) (v : Int)
    (body : SubprocessConnection → Except ε α × SubprocessConnection) :
    (c.timeout_override v body).2.timeout = c.timeout ∧
    (c.setTimeout v).timeout = v ∧
    (c.timeout_override v body).1 = (body (c.setTimeout v)).1 :=
  ⟨rfl, rfl, rfl⟩

/-- Claim C7: `write(data)` returns `0` when the underlying `stdin.write` (or
the subsequent `stdin.flush`) raises `BrokenPipeError` because the child has
exited; when the pipe is open it returns the count of bytes the transport
accepted. -/
theorem write_broken_pipe_returns_zero (c : SubprocessConnection) (data : List Nat) :
    (∀ e, c._process.stdinWriteResult data = .error e → c.write data = 0) ∧
    (∀ e n, c._process.stdinWriteResult data = .ok n →
      c._process.stdinFlushResult = .error e → c.write data = 0) ∧
    (∀ n, c._process.stdinWriteResult data = .ok n →
      c._process.stdinFlushResult = .ok () → c.write data = n) := by
  refine ⟨?_, ?_, ?_⟩
  · intro e h
    simp [SubprocessConnection.write, h]
  · intro e n h1 h2
    simp [SubprocessConnection.write, h1, h2]
  · intro n h1 h2
    simp [SubprocessConnection.write, h1, h2]

/-- Claim C7 witness: a broken-pipe connection reports zero bytes written; an
open connection reports the transport's accepted count. -/
theorem write_broken_pipe_returns_zero_witness :
    brokenStdinConn.write [1, 2] = 0 ∧ (mkConn [] 1).write [1, 2] = 2 :=
  ⟨(write_broken_pipe_returns_zero brokenStdinConn [1, 2]).1 .brokenPipe rfl,
    (write_broken_pipe_returns_zero (mkConn [] 1) [1, 2]).2.2 2 rfl rfl⟩

/-- Claim C8: `read_buffered` never consults the timeout (its whole result is
unchanged under any change of the timeout), never blocks (the clock at return
equals the clock at entry, every poll being `select(0)`), drains only bytes
already available (every consumed byte arrived at or before `now`, and the
result is a consumed slice), and returns empty when nothing is currently
queued. -/
theorem read_buffered_ignores_timeout (c : SubprocessConnection) (now t1 t2 : Int) :
    ((c.setTimeout t1).read_buffered now).1 = ((c.setTimeout t2).read_buffered now).1 ∧
    ((c.setTimeout t1).read_buffered now).2.1._process.stdoutPending
      = ((c.setTimeout t2).read_buffered now).2.1._process.stdoutPending ∧
    (c.read_buffered now).2.2 = now ∧
    (∃ k ≤ c._process.stdoutPending.length,
      (c.read_buffered now).1 = (c._process.stdoutPending.take k).map Prod.snd ∧
      (c.read_buffered now).2.1._process.stdoutPending
        = c._process.stdoutPending.drop k ∧
      ∀ x ∈ c._process.stdoutPending.take k, x.1 ≤ now) ∧
    ((∀ x ∈ c._process.stdoutPending.take 1, now < x.1) →
      (c.read_buffered now).1 = []) := by
  refine ⟨rfl, rfl, ?_, ?_, ?_⟩
  · obtain ⟨-, -, -, -, -, h5⟩ := readBufferedLoop_slice c._process.stdoutPending [] now
    exact h5
  · obtain ⟨k, hk, h1, h2, h3, -⟩ := readBufferedLoop_slice c._process.stdoutPending [] now
    exact ⟨k, hk, by simpa using h1, h2, h3⟩
  · intro h
    cases hp : c._process.stdoutPending with
    | nil =>
      show (readBufferedLoop [] c._process.stdoutPending now).1 = []
      rw [hp, readBufferedLoop_nil]
    | cons hd tl =>
      obtain ⟨a, b⟩ := hd
      have ha : now < a := by
        have := h (a, b)
        rw [hp, List.take_succ_cons] at this
        exact this (List.mem_cons_self _ _)
      show (readBufferedLoop [] c._process.stdoutPending now).1 = []
      rw [hp, readBufferedLoop_cons, if_neg (by omega)]

/-- Claim C8 witness: with the only queued byte not yet arrived,
`read_buffered` returns empty. -/
theorem read_buffered_ignores_timeout_witness :
    ((mkConn [(5, 65)] 3).read_buffered 0).1 = [] :=
  (read_buffered_ignores_timeout (mkConn [(5, 65)] 3) 0 0 0).2.2.2.2 (by decide)

/-- Claim C9, counterexample: with a negative timeout (-1) and a byte already
available at time 0, `read(10)` called at time 5 raises nothing — it returns
normally and immediately with the empty byte sequence, consuming nothing and
letting no time pass.  No failure propagates to the caller: the misuse is
silently absorbed as an already-expired deadline. -/
theorem read_negative_timeout_cx :
    ((mkConn [(0, 65)] (-1)).read 5 10).1 = [] ∧
    ((mkConn [(0, 65)] (-1)).read 5 10).2.1._process.stdoutPending
      = (mkConn [(0, 65)] (-1))._process.stdoutPending ∧
    ((mkConn [(0, 65)] (-1)).read 5 10).2.2 = 5 := by
  decide

/-- Claim C9 (amended): a negative timeout is not validated and is not a
fatal condition; a blocking read operation invoked with a negative timeout
returns immediately and normally with the empty byte sequence, the stream and
the clock untouched — it behaves as an already-expired deadline rather than
propagating a failure. -/
theorem read_negative_timeout_amended (c : SubprocessConnection) (now : Int)
    (num_bytes : Nat) (ending : List Nat) (h : c._timeout < 0) :
    c.read now num_bytes = ([], c, now) ∧ c.read_until now ending = ([], c, now) := by
  have hn : ¬ now < now + c._timeout := by omega
  constructor
  · simp only [SubprocessConnection.read, readLoop_expired _ _ _ _ _ _ hn]
  · simp only [SubprocessConnection.read_until, readUntilLoop_expired _ _ _ _ _ _ hn]

/-- Claim C9 witness: the amended behavior at a concrete connection with
timeout -3. -/
theorem read_negative_timeout_amended_witness :
    (mkConn [(1, 70)] (-3)).read 2 4 = ([], mkConn [(1, 70)] (-3), 2) ∧
    (mkConn [(1, 70)] (-3)).read_until 2 [70] = ([], mkConn [(1, 70)] (-3), 2) :=
  read_negative_timeout_amended (mkConn [(1, 70)] (-3)) 2 4 [70] (by decide)

/-- Claim C10: used as a context manager, a connection's `__enter__` returns
the connection itself, and `close()` (whose effect is the recorded `kill()`)
runs exactly once on every exit path of the `with` block — after a normal
completion and before a propagating exception, whose outcome is passed
through unchanged. -/
theorem with_context_closes_once {ε α : Type} (c : SubprocessConnection)
    (body : SubprocessConnection → Except ε α × SubprocessConnection) :
    c.enter = c ∧
    (c.withContext body).1 = (body c).1 ∧
    (c.withContext body).2._process.killCount = ((body c).2)._process.killCount + 1 :=
  ⟨rfl, rfl, rfl⟩

end Upyt
